import Mathlib

set_option maxRecDepth 100000

/-!
Verification of the ASCII oscilloscope core (`main.py`): the voltage-to-row
coordinate mapper, the scrolling history buffer, and the frame compositor.
Voltages are modelled as rationals; Python's builtin `round` (round half to
even) is modelled explicitly.  Python list writes that can raise `IndexError`
are modelled in the `Option` monad, with Python's negative-index wrap-around.
-/

namespace Oscilloscope

/-- Plot area width in characters (`W = 64`). -/
def W : ℕ := 64

/-- Plot area height in characters (`H = 20`). -/
def H : ℕ := 20

/-- Columns reserved for Y-axis labels and the axis bar (`LEFT_MARGIN = 7`). -/
def LEFT_MARGIN : ℕ := 7

/-- Y-axis display scale (`VREF_DISPLAY = 5.0`). -/
def VREF_DISPLAY : ℚ := 5

/-- Grid drawing toggle (`DRAW_GRID = True`). -/
def DRAW_GRID : Bool := true

/-- Python 3 builtin `round` on an exact rational: round half to even. -/
def roundHalfEven (q : ℚ) : ℤ :=
  if Int.fract q < 1/2 then ⌊q⌋
  else if 1/2 < Int.fract q then ⌊q⌋ + 1
  else if ⌊q⌋ % 2 = 0 then ⌊q⌋ else ⌊q⌋ + 1

/-- `v_to_row` from `main.py`: `frac = 1.0 - v / VREF_DISPLAY`;
`y = int(round(frac * (H-1)))`; then `y` is clamped into `[0, H-1]`. -/
def v_to_row (v : ℚ) : ℤ :=
  let frac : ℚ := 1 - v / VREF_DISPLAY
  let y : ℤ := roundHalfEven (frac * ((H : ℚ) - 1))
  if y < 0 then 0 else if y > (H : ℤ) - 1 then (H : ℤ) - 1 else y

/-- One history-buffer update from the main loop: `y_hist.pop(0)` followed by
`y_hist.append(y)` (drop the oldest entry at the front, append at the back). -/
def push_sample (l : List ℤ) (y : ℤ) : List ℤ := l.tail ++ [y]

/-- The initial history buffer from `main`: `y_hist = [H//2] * W`. -/
def initHist : List ℤ := List.replicate W ((H : ℤ) / 2)

theorem roundHalfEven_intCast (n : ℤ) : roundHalfEven (n : ℚ) = n := by
  simp [roundHalfEven, Int.fract_intCast]

theorem roundHalfEven_ge_floor (q : ℚ) : ⌊q⌋ ≤ roundHalfEven q := by
  unfold roundHalfEven
  split_ifs <;> omega

theorem roundHalfEven_le_floor_add_one (q : ℚ) : roundHalfEven q ≤ ⌊q⌋ + 1 := by
  unfold roundHalfEven
  split_ifs <;> omega

theorem roundHalfEven_mono {q1 q2 : ℚ} (h : q1 ≤ q2) :
    roundHalfEven q1 ≤ roundHalfEven q2 := by
  rcases lt_or_eq_of_le (Int.floor_mono h) with hf | hf
  · calc roundHalfEven q1 ≤ ⌊q1⌋ + 1 := roundHalfEven_le_floor_add_one q1
      _ ≤ ⌊q2⌋ := by omega
      _ ≤ roundHalfEven q2 := roundHalfEven_ge_floor q2
  · have hr : Int.fract q1 ≤ Int.fract q2 := by
      simp only [Int.fract, hf]
      linarith
    unfold roundHalfEven
    rw [hf]
    split_ifs <;> first | omega | linarith

theorem clamp_last_row {y : ℤ} (hy : 19 ≤ y) :
    (if y < 0 then 0 else if y > (H : ℤ) - 1 then (H : ℤ) - 1 else y) = 19 := by
  simp only [H]
  split_ifs <;> omega

theorem clamp_mono {y1 y2 : ℤ} (h : y1 ≤ y2) :
    (if y1 < 0 then 0 else if y1 > (H : ℤ) - 1 then (H : ℤ) - 1 else y1) ≤
      (if y2 < 0 then 0 else if y2 > (H : ℤ) - 1 then (H : ℤ) - 1 else y2) := by
  simp only [H]
  split_ifs <;> omega

theorem clamp_first_row {y : ℤ} (hy : y ≤ 0) :
    (if y < 0 then 0 else if y > (H : ℤ) - 1 then (H : ℤ) - 1 else y) = 0 := by
  simp only [H]
  split_ifs <;> omega

theorem v_to_row_at_zero : v_to_row 0 = 19 := by
  have h : (1 - (0:ℚ) / VREF_DISPLAY) * ((H : ℚ) - 1) = ((19:ℤ):ℚ) := by
    norm_num [VREF_DISPLAY, H]
  simp only [v_to_row, h, roundHalfEven_intCast]
  exact clamp_last_row (by norm_num)

theorem v_to_row_at_vref : v_to_row VREF_DISPLAY = 0 := by
  have h : (1 - VREF_DISPLAY / VREF_DISPLAY) * ((H : ℚ) - 1) = ((0:ℤ):ℚ) := by
    norm_num [VREF_DISPLAY, H]
  simp only [v_to_row, h, roundHalfEven_intCast]
  exact clamp_first_row (by norm_num)

theorem v_to_row_of_neg {v : ℚ} (hv : v < 0) : v_to_row v = 19 := by
  have hd : v / VREF_DISPLAY < 0 := by
    apply div_neg_of_neg_of_pos hv
    norm_num [VREF_DISPLAY]
  have hq : ((19:ℤ):ℚ) ≤ (1 - v / VREF_DISPLAY) * ((H : ℚ) - 1) := by
    have hH : ((H : ℚ) - 1) = 19 := by norm_num [H]
    rw [hH]
    push_cast
    nlinarith [hd]
  have hy : (19:ℤ) ≤ roundHalfEven ((1 - v / VREF_DISPLAY) * ((H : ℚ) - 1)) :=
    le_trans (Int.le_floor.mpr hq) (roundHalfEven_ge_floor _)
  simp only [v_to_row]
  exact clamp_last_row hy

theorem v_to_row_of_gt_vref {v : ℚ} (hv : VREF_DISPLAY < v) : v_to_row v = 0 := by
  have h5 : (0:ℚ) < VREF_DISPLAY := by norm_num [VREF_DISPLAY]
  have hq : (1 - v / VREF_DISPLAY) * ((H : ℚ) - 1) < 0 := by
    have h1 : 1 < v / VREF_DISPLAY := (one_lt_div h5).mpr hv
    have hH : (0:ℚ) < (H : ℚ) - 1 := by norm_num [H]
    nlinarith
  have hfl : ⌊(1 - v / VREF_DISPLAY) * ((H : ℚ) - 1)⌋ < 0 := by
    have hle : (↑⌊(1 - v / VREF_DISPLAY) * ((H : ℚ) - 1)⌋ : ℚ) ≤ _ := Int.floor_le _
    have hlt : (↑⌊(1 - v / VREF_DISPLAY) * ((H : ℚ) - 1)⌋ : ℚ) < 0 := lt_of_le_of_lt hle hq
    exact_mod_cast hlt
  have hy : roundHalfEven ((1 - v / VREF_DISPLAY) * ((H : ℚ) - 1)) ≤ 0 :=
    le_trans (roundHalfEven_le_floor_add_one _) (by omega)
  simp only [v_to_row]
  exact clamp_first_row hy

theorem v_to_row_antitone {v1 v2 : ℚ} (h : v1 ≤ v2) : v_to_row v2 ≤ v_to_row v1 := by
  have h5 : (0:ℚ) < VREF_DISPLAY := by norm_num [VREF_DISPLAY]
  have hdiv : v1 / VREF_DISPLAY ≤ v2 / VREF_DISPLAY :=
    div_le_div_of_nonneg_right h h5.le
  have hq : (1 - v2 / VREF_DISPLAY) * ((H : ℚ) - 1) ≤
      (1 - v1 / VREF_DISPLAY) * ((H : ℚ) - 1) := by
    have hH : (0:ℚ) ≤ (H : ℚ) - 1 := by norm_num [H]
    exact mul_le_mul_of_nonneg_right (by linarith) hH
  have hy := roundHalfEven_mono hq
  simp only [v_to_row]
  exact clamp_mono hy

theorem length_push_sample (l : List ℤ) (y : ℤ) (h : l.length = W) :
    (push_sample l y).length = W := by
  simp only [push_sample, List.length_append, List.length_tail, List.length_singleton]
  simp only [W] at h ⊢
  omega

theorem length_foldl_push (rs : List ℤ) :
    ∀ l : List ℤ, l.length = W → (rs.foldl push_sample l).length = W := by
  induction rs with
  | nil => intro l h; simpa using h
  | cons r rs ih =>
    intro l h
    simp only [List.foldl_cons]
    exact ih _ (length_push_sample l r h)

theorem foldl_push_replicate (rs : List ℤ) :
    ∀ (m : ℕ) (acc : List ℤ), rs.length ≤ m →
      rs.foldl push_sample (List.replicate m ((H:ℤ)/2) ++ acc) =
        List.replicate (m - rs.length) ((H:ℤ)/2) ++ (acc ++ rs) := by
  induction rs with
  | nil => intro m acc h; simp
  | cons r rs ih =>
    intro m acc h
    cases m with
    | zero => simp at h
    | succ m =>
      simp only [List.foldl_cons]
      rw [show push_sample (List.replicate (m+1) ((H:ℤ)/2) ++ acc) r =
            List.replicate m ((H:ℤ)/2) ++ (acc ++ [r]) from by
          simp [push_sample, List.replicate_succ]]
      rw [ih m (acc ++ [r]) (by simp at h ⊢; omega)]
      have hm : m - rs.length = m + 1 - (r :: rs).length := by
        simp only [List.length_cons]
        omega
      rw [hm]
      simp

/-- Claim C6: starting from the initial buffer, after any number of
`push_sample` operations the length of the history buffer equals `W`. -/
theorem C6_history_length (rs : List ℤ) :
    (rs.foldl push_sample initHist).length = W :=
  length_foldl_push rs initHist (by simp [initHist])

/-- Claim C7: pushing `r1..rk` (for `k ≤ W`) onto the initial buffer yields
the midpoint value `H/2` in the first `W - k` slots followed by `r1..rk`
in order. -/
theorem C7_fifo (rs : List ℤ) (h : rs.length ≤ W) :
    rs.foldl push_sample initHist =
      List.replicate (W - rs.length) ((H:ℤ)/2) ++ rs := by
  have hr := foldl_push_replicate rs W [] h
  simpa [initHist] using hr

theorem C7_fifo_witness :
    ([(3:ℤ), 7].length ≤ W) ∧
      ([(3:ℤ), 7].foldl push_sample initHist =
        List.replicate (W - [(3:ℤ), 7].length) ((H:ℤ)/2) ++ [(3:ℤ), 7]) :=
  ⟨by decide, C7_fifo [3, 7] (by decide)⟩

/-- Claim C3: the endpoint voltages map to the extreme rows of the inverted
axis: `v_to_row 0 = H - 1`, `v_to_row VREF_DISPLAY = 0`, and both results
lie inside `[0, H-1]`. -/
theorem C3_endpoint_mapping :
    v_to_row 0 = (H : ℤ) - 1 ∧ v_to_row VREF_DISPLAY = 0 ∧
      (0 ≤ v_to_row 0 ∧ v_to_row 0 ≤ (H : ℤ) - 1) ∧
      (0 ≤ v_to_row VREF_DISPLAY ∧ v_to_row VREF_DISPLAY ≤ (H : ℤ) - 1) := by
  have h0 := v_to_row_at_zero
  have h5 := v_to_row_at_vref
  have hH : (H : ℤ) - 1 = 19 := by norm_num [H]
  exact ⟨by omega, h5, by omega, by omega⟩

/-- Claim C4: out-of-range voltages are saturated: for `v < 0` the row equals
`v_to_row 0`, and for `v > VREF_DISPLAY` it equals `v_to_row VREF_DISPLAY`. -/
theorem C4_clamping (v : ℚ) :
    (v < 0 → v_to_row v = v_to_row 0) ∧
      (VREF_DISPLAY < v → v_to_row v = v_to_row VREF_DISPLAY) :=
  ⟨fun hv => by rw [v_to_row_of_neg hv, v_to_row_at_zero],
   fun hv => by rw [v_to_row_of_gt_vref hv, v_to_row_at_vref]⟩

theorem C4_clamping_witness :
    ((-1 : ℚ) < 0 ∧ v_to_row (-1) = v_to_row 0) ∧
      (VREF_DISPLAY < 6 ∧ v_to_row 6 = v_to_row VREF_DISPLAY) :=
  ⟨⟨by decide, (C4_clamping (-1)).1 (by decide)⟩,
   ⟨by decide, (C4_clamping 6).2 (by decide)⟩⟩

/-- Claim C5: `v_to_row` is antitone on `[0, VREF_DISPLAY]`: a higher voltage
maps to a lower (or equal) row number. -/
theorem C5_antitone (v1 v2 : ℚ) (_h0 : 0 ≤ v1) (h12 : v1 < v2)
    (_h5 : v2 ≤ VREF_DISPLAY) : v_to_row v2 ≤ v_to_row v1 :=
  v_to_row_antitone h12.le

theorem C5_antitone_witness :
    (0:ℚ) ≤ 1 ∧ (1:ℚ) < 2 ∧ (2:ℚ) ≤ VREF_DISPLAY ∧ v_to_row 2 ≤ v_to_row 1 :=
  ⟨by decide, by decide, by decide, C5_antitone 1 2 (by decide) (by decide) (by decide)⟩

/-- Result of the f-string `f"{VREF_DISPLAY:>4.1f}|"` with `VREF_DISPLAY = 5.0`. -/
def topLabel : List Char := " 5.0|".toList

/-- Result of the f-string `f"{(VREF_DISPLAY/2):>4.1f}|"`, i.e. `2.5` formatted. -/
def midLabel : List Char := " 2.5|".toList

/-- Result of the f-string `f"{0.0:>4.1f}|"`. -/
def botLabel : List Char := " 0.0|".toList

/-- Python slice assignment `line[0:len(s)] = s` at the start of a line. -/
def writeSlice (line : List Char) (s : List Char) : List Char :=
  s ++ line.drop s.length

/-- The freshly allocated line `[' '] * (LEFT_MARGIN + W)`. -/
def emptyLine : List Char := List.replicate (LEFT_MARGIN + W) ' '

/-- Axis decoration for row `r`: labels on rows `0`, `H//2`, `H-1`,
otherwise a vertical bar at column `LEFT_MARGIN - 1` (guarded as in the
source by `0 <= bar_x < LEFT_MARGIN + W`). -/
def buildRowDec (r : ℕ) : List Char :=
  if r = 0 then writeSlice emptyLine topLabel
  else if r = H / 2 then writeSlice emptyLine midLabel
  else if r = H - 1 then writeSlice emptyLine botLabel
  else if 0 ≤ (LEFT_MARGIN : ℤ) - 1 ∧ (LEFT_MARGIN : ℤ) - 1 < (LEFT_MARGIN : ℤ) + (W : ℤ)
    then emptyLine.set (LEFT_MARGIN - 1) '|'
  else emptyLine

/-- `for c in range(LEFT_MARGIN, LEFT_MARGIN + W): line[c] = '-'`. -/
def gridRule (line : List Char) : List Char :=
  (List.range W).foldl (fun l k => l.set (LEFT_MARGIN + k) '-') line

/-- `for c in range(LEFT_MARGIN, LEFT_MARGIN + W): if line[c] == ' ': line[c] = '.'`. -/
def gridDots (line : List Char) : List Char :=
  (List.range W).foldl
    (fun l k => if l.getD (LEFT_MARGIN + k) ' ' = ' ' then l.set (LEFT_MARGIN + k) '.' else l)
    line

/-- The grid-drawing step for row `r` (horizontal rules on rows `0` and `H-1`,
dotted guide on row `H//2` where still blank), active when `DRAW_GRID`. -/
def applyGrid (r : ℕ) (line : List Char) : List Char :=
  if DRAW_GRID then
    let l1 := if r = 0 ∨ r = H - 1 then gridRule line else line
    if r = H / 2 then gridDots l1 else l1
  else line

/-- One fully decorated canvas row before the trace is drawn. -/
def buildRow (r : ℕ) : List Char := applyGrid r (buildRowDec r)

/-- The canvas after decoration and grid, before the trace (steps 1-3). -/
def canvas : List (List Char) := (List.range H).map buildRow

/-- Python list indexing: in-range indices unchanged, negative indices wrap
from the end, anything else raises `IndexError` (here: `none`). -/
def pyIdx (n : ℕ) (i : ℤ) : Option ℕ :=
  if 0 ≤ i ∧ i < (n : ℤ) then some i.toNat
  else if -(n : ℤ) ≤ i ∧ i < 0 then some (i + n).toNat
  else none

/-- `lines[r][c] = ch` with Python indexing semantics on the row index; the
column indices used by `draw_frame` are always non-negative, so the column
check is a plain bound check. -/
def setCell (g : List (List Char)) (r : ℤ) (c : ℕ) (ch : Char) :
    Option (List (List Char)) :=
  match pyIdx g.length r with
  | none => none
  | some j =>
    if c < (g.getD j []).length then some (g.set j ((g.getD j []).set c ch))
    else none

/-- `range(p, y, step)` with `step = 1 if y - p > 0 else -1`, as in the
connector loop: half-open, excluding `y`. -/
def connRange (p y : ℤ) : List ℤ :=
  if y - p > 0 then List.map (fun k => p + Int.ofNat k) (List.range (y - p).toNat)
  else List.map (fun k => p - Int.ofNat k) (List.range (p - y).toNat)

/-- The connector loop body: `for yy in range(prev_y, y, step): lines[yy][x-1] = '*'`. -/
def writeCol (c : ℕ) : List (List Char) → List ℤ → Option (List (List Char))
  | g, [] => some g
  | g, yy :: ys =>
    match setCell g yy c '*' with
    | none => none
    | some g1 => writeCol c g1 ys

/-- The trace-plotting loop of `draw_frame` (step 4): `prev_y` starts as
`None` and is updated after every iteration, including skipped out-of-range
points; the point write is guarded by `0 <= y < H`; the connector is drawn
when `prev_y` is set and `x-1 >= LEFT_MARGIN`. -/
def drawTrace : List (List Char) → Option ℤ → ℕ → List ℤ → Option (List (List Char))
  | g, _, _, [] => some g
  | g, prev, i, y :: rest =>
    if 0 ≤ y ∧ y < (H : ℤ) then
      match setCell g y (LEFT_MARGIN + i) '*' with
      | none => none
      | some g1 =>
        match prev with
        | none => drawTrace g1 (some y) (i+1) rest
        | some p =>
          if LEFT_MARGIN ≤ LEFT_MARGIN + i - 1 then
            match writeCol (LEFT_MARGIN + i - 1) g1 (connRange p y) with
            | none => none
            | some g2 => drawTrace g2 (some y) (i+1) rest
          else drawTrace g1 (some y) (i+1) rest
    else drawTrace g (some y) (i+1) rest

/-- `draw_frame` from `main.py`, as the grid of characters it composes
(terminal output of the joined rows is outside the core). `none` models an
uncaught `IndexError` during trace drawing. -/
def draw_frame (hist : List ℤ) : Option (List (List Char)) :=
  drawTrace canvas none 0 hist

/-- The character at row `r`, column `c` of a grid (blank when out of range). -/
def cellD (g : List (List Char)) (r c : ℕ) : Char := (g.getD r []).getD c ' '

/-- The character at `(r, c)` of an optional grid. -/
def cellO (og : Option (List (List Char))) (r c : ℕ) : Option Char :=
  og.map (fun g => cellD g r c)

theorem getD_set_self {α : Type} (l : List α) (i : ℕ) (a d : α) (h : i < l.length) :
    (l.set i a).getD i d = a := by
  simp [List.getD_eq_getElem?_getD, List.getElem?_set, h]

theorem getD_set_ne {α : Type} (l : List α) (i j : ℕ) (a d : α) (h : i ≠ j) :
    (l.set i a).getD j d = l.getD j d := by
  simp [List.getD_eq_getElem?_getD, List.getElem?_set, h]

theorem getD_mem {α : Type} (l : List α) (j : ℕ) (d : α) (h : j < l.length) :
    l.getD j d ∈ l := by
  rw [List.getD_eq_getElem?_getD, List.getElem?_eq_getElem h]
  simp [List.getElem_mem]

/-- Well-formed grid: `H` rows of `LEFT_MARGIN + W` characters. -/
def DimsOk (g : List (List Char)) : Prop :=
  g.length = H ∧ ∀ row ∈ g, row.length = LEFT_MARGIN + W

/-- `g'` differs from `g` at most by cells holding the trace glyph. -/
def StarDiff (g g' : List (List Char)) : Prop :=
  ∀ r c, cellD g' r c = cellD g r c ∨ cellD g' r c = '*'

/-- `g'` agrees with `g` on the margin columns `[0, LEFT_MARGIN-1]`. -/
def MarginPres (g g' : List (List Char)) : Prop :=
  ∀ r c, c < LEFT_MARGIN → cellD g' r c = cellD g r c

theorem star_diff_trans {g1 g2 g3 : List (List Char)}
    (h12 : StarDiff g1 g2) (h23 : StarDiff g2 g3) : StarDiff g1 g3 := by
  intro r c
  rcases h23 r c with h | h
  · rw [h]; exact h12 r c
  · exact Or.inr h

theorem star_keep {g g' : List (List Char)} (h : StarDiff g g') {r c : ℕ}
    (hc : cellD g r c = '*') : cellD g' r c = '*' := by
  rcases h r c with h | h
  · rw [h, hc]
  · exact h

theorem margin_pres_trans {g1 g2 g3 : List (List Char)}
    (h12 : MarginPres g1 g2) (h23 : MarginPres g2 g3) : MarginPres g1 g3 := by
  intro r c hc
  rw [h23 r c hc, h12 r c hc]

theorem setCell_ok {g : List (List Char)} {r : ℤ} {c : ℕ} (ch : Char)
    (hg : DimsOk g) (hr0 : 0 ≤ r) (hrH : r < (H : ℤ)) (hc : c < LEFT_MARGIN + W) :
    ∃ g', setCell g r c ch = some g' ∧ DimsOk g' ∧
      cellD g' r.toNat c = ch ∧
      ∀ r' c', ¬(r' = r.toNat ∧ c' = c) → cellD g' r' c' = cellD g r' c' := by
  obtain ⟨hlen, hrows⟩ := hg
  have hjlt : r.toNat < g.length := by omega
  have hIdx : pyIdx g.length r = some r.toNat := by
    unfold pyIdx
    rw [if_pos ⟨hr0, by omega⟩]
  have hrowlen : (g.getD r.toNat []).length = LEFT_MARGIN + W :=
    hrows _ (getD_mem g r.toNat [] hjlt)
  refine ⟨g.set r.toNat ((g.getD r.toNat []).set c ch), ?_, ?_, ?_, ?_⟩
  · unfold setCell
    rw [hIdx]
    simp only [hrowlen]
    rw [if_pos hc]
  · constructor
    · simp [hlen]
    · intro row hrow
      rcases List.mem_or_eq_of_mem_set hrow with h | h
      · exact hrows row h
      · rw [h, List.length_set]
        exact hrowlen
  · unfold cellD
    rw [getD_set_self _ _ _ _ hjlt, getD_set_self _ _ _ _ (by omega)]
  · intro r' c' hne
    unfold cellD
    rcases eq_or_ne r' r.toNat with hr | hr
    · subst hr
      have hc' : c' ≠ c := fun h => hne ⟨rfl, h⟩
      rw [getD_set_self _ _ _ _ hjlt, getD_set_ne _ _ _ _ _ (Ne.symm hc')]
    · rw [getD_set_ne _ _ _ _ _ (Ne.symm hr)]

theorem connRange_mem {p y yy : ℤ} (h : yy ∈ connRange p y) :
    (p ≤ yy ∧ yy < y) ∨ (y < yy ∧ yy ≤ p) := by
  unfold connRange at h
  split_ifs at h with hd
  · obtain ⟨k, hk, hkeq⟩ := List.mem_map.mp h
    have hk' := List.mem_range.mp hk
    simp only [Int.ofNat_eq_natCast] at hkeq
    left
    omega
  · obtain ⟨k, hk, hkeq⟩ := List.mem_map.mp h
    have hk' := List.mem_range.mp hk
    simp only [Int.ofNat_eq_natCast] at hkeq
    right
    omega

theorem connRange_mem_of_between {p y yy : ℤ} (h1 : min p y ≤ yy) (h2 : yy ≤ max p y)
    (h3 : yy ≠ y) : yy ∈ connRange p y := by
  unfold connRange
  split_ifs with hd
  · exact List.mem_map.mpr ⟨(yy - p).toNat, List.mem_range.mpr (by omega), by
      simp only [Int.ofNat_eq_natCast]; omega⟩
  · exact List.mem_map.mpr ⟨(p - yy).toNat, List.mem_range.mpr (by omega), by
      simp only [Int.ofNat_eq_natCast]; omega⟩

theorem star_diff_of_write {g g1 : List (List Char)} {rt c : ℕ}
    (hcell : cellD g1 rt c = '*')
    (hpres : ∀ r' c', ¬(r' = rt ∧ c' = c) → cellD g1 r' c' = cellD g r' c') :
    StarDiff g g1 := by
  intro r0 c0
  by_cases hh : r0 = rt ∧ c0 = c
  · right; rw [hh.1, hh.2]; exact hcell
  · left; exact hpres r0 c0 hh

theorem margin_pres_of_write {g g1 : List (List Char)} {rt c : ℕ}
    (hcL : LEFT_MARGIN ≤ c)
    (hpres : ∀ r' c', ¬(r' = rt ∧ c' = c) → cellD g1 r' c' = cellD g r' c') :
    MarginPres g g1 := by
  intro r0 c0 hc0
  exact hpres r0 c0 (fun hh => by omega)

theorem writeCol_ok : ∀ (ys : List ℤ) (g : List (List Char)) (c : ℕ),
    DimsOk g → (∀ yy ∈ ys, 0 ≤ yy ∧ yy < (H : ℤ)) → c < LEFT_MARGIN + W →
    ∃ g', writeCol c g ys = some g' ∧ DimsOk g' ∧
      (∀ r' c', c' ≠ c → cellD g' r' c' = cellD g r' c') ∧
      StarDiff g g' ∧
      (∀ yy ∈ ys, cellD g' yy.toNat c = '*') := by
  intro ys
  induction ys with
  | nil =>
    intro g c hg _ _
    exact ⟨g, rfl, hg, fun _ _ _ => rfl, fun _ _ => Or.inl rfl, by simp⟩
  | cons yy ys ih =>
    intro g c hg hys hc
    have hy := hys yy (List.mem_cons_self yy ys)
    obtain ⟨g1, hset, hg1, hcell, hpres⟩ := setCell_ok '*' hg hy.1 hy.2 hc
    obtain ⟨g', hrec, hg', hcol, hstar, hmem⟩ :=
      ih g1 c hg1 (fun z hz => hys z (List.mem_cons_of_mem _ hz)) hc
    refine ⟨g', ?_, hg', ?_, ?_, ?_⟩
    · simp only [writeCol, hset]
      exact hrec
    · intro r' c' hne
      rw [hcol r' c' hne, hpres r' c' (fun hh => hne hh.2)]
    · exact star_diff_trans (star_diff_of_write hcell hpres) hstar
    · intro z hz
      rcases List.mem_cons.mp hz with rfl | hz'
      · exact star_keep hstar hcell
      · exact hmem z hz'

theorem drawTrace_ok : ∀ (hist : List ℤ) (g : List (List Char)) (prev : Option ℤ) (i : ℕ),
    DimsOk g → i + hist.length ≤ W →
    (∀ y ∈ hist, 0 ≤ y ∧ y < (H : ℤ)) →
    (∀ p, prev = some p → 0 ≤ p ∧ p < (H : ℤ)) →
    ∃ g', drawTrace g prev i hist = some g' ∧ DimsOk g' ∧
      MarginPres g g' ∧ StarDiff g g' ∧
      (∀ j, j < hist.length →
        cellD g' (hist.getD j 0).toNat (LEFT_MARGIN + i + j) = '*') ∧
      (∀ p, prev = some p → 1 ≤ i → 0 < hist.length →
        ∀ yy ∈ connRange p (hist.getD 0 0),
          cellD g' yy.toNat (LEFT_MARGIN + i - 1) = '*') ∧
      (∀ j, 0 < j → j < hist.length →
        ∀ yy ∈ connRange (hist.getD (j-1) 0) (hist.getD j 0),
          cellD g' yy.toNat (LEFT_MARGIN + i + j - 1) = '*') := by
  intro hist
  induction hist with
  | nil =>
    intro g prev i hg _ _ _
    refine ⟨g, rfl, hg, fun _ _ _ => rfl, fun _ _ => Or.inl rfl, ?_, ?_, ?_⟩
    · intro j hj; simp at hj
    · intro p _ _ h0; simp at h0
    · intro j hj0 hj; simp at hj
  | cons y rest ih =>
    intro g prev i hg hlen hmem hprev
    have hyH := hmem y (List.mem_cons_self y rest)
    have hiW : i < W := by simp only [List.length_cons] at hlen; omega
    have hcW : LEFT_MARGIN + i < LEFT_MARGIN + W := by omega
    obtain ⟨g1, hset, hg1, hcell1, hpres1⟩ := setCell_ok '*' hg hyH.1 hyH.2 hcW
    have hmar1 : MarginPres g g1 := margin_pres_of_write (by omega) hpres1
    have hstar1 : StarDiff g g1 := star_diff_of_write hcell1 hpres1
    have hlen' : (i + 1) + rest.length ≤ W := by
      simp only [List.length_cons] at hlen; omega
    have hmem' : ∀ z ∈ rest, 0 ≤ z ∧ z < (H : ℤ) :=
      fun z hz => hmem z (List.mem_cons_of_mem _ hz)
    have hprev' : ∀ q, some y = some q → 0 ≤ q ∧ q < (H : ℤ) := by
      intro q hq; cases hq; exact hyH
    cases prev with
    | none =>
      obtain ⟨g', hrec, hg', hmar, hstar, hpts, hch, hct⟩ :=
        ih g1 (some y) (i+1) hg1 hlen' hmem' hprev'
      refine ⟨g', ?_, hg', margin_pres_trans hmar1 hmar,
        star_diff_trans hstar1 hstar, ?_, ?_, ?_⟩
      · show drawTrace g none i (y :: rest) = some g'
        simp only [drawTrace, hset]
        rw [if_pos hyH]
        exact hrec
      · intro j hj
        cases j with
        | zero =>
          simpa using star_keep hstar hcell1
        | succ j =>
          have harith : LEFT_MARGIN + i + (j+1) = LEFT_MARGIN + (i+1) + j := by omega
          rw [List.getD_cons_succ, harith]
          exact hpts j (by simp only [List.length_cons] at hj; omega)
      · intro p hp; exact absurd hp (by simp)
      · intro j hj0 hjlen yy hyy
        cases j with
        | zero => omega
        | succ j =>
          simp only [Nat.succ_sub_one, List.getD_cons_succ] at hyy ⊢
          cases j with
          | zero =>
            simp only [List.getD_cons_zero] at hyy
            have hc1 : LEFT_MARGIN + i + 1 - 1 = LEFT_MARGIN + (i+1) - 1 := by omega
            rw [hc1]
            exact hch y rfl (by omega)
              (by simp only [List.length_cons] at hjlen; omega) yy hyy
          | succ j =>
            have hc2 : LEFT_MARGIN + i + (j+2) - 1 = LEFT_MARGIN + (i+1) + (j+1) - 1 := by
              omega
            rw [hc2]
            exact hct (j+1) (by omega)
              (by simp only [List.length_cons] at hjlen; omega) yy hyy
    | some p =>
      have hpH := hprev p rfl
      by_cases hi : 1 ≤ i
      · have hcond : LEFT_MARGIN ≤ LEFT_MARGIN + i - 1 := by omega
        have hcW' : LEFT_MARGIN + i - 1 < LEFT_MARGIN + W := by omega
        have hconn : ∀ yy ∈ connRange p y, 0 ≤ yy ∧ yy < (H : ℤ) := by
          intro yy hyy
          rcases connRange_mem hyy with h | h <;>
            exact ⟨by omega, by omega⟩
        obtain ⟨g2, hwc, hg2, hcol2, hstar2, hmem2⟩ :=
          writeCol_ok (connRange p y) g1 (LEFT_MARGIN + i - 1) hg1 hconn hcW'
        have hmar2 : MarginPres g1 g2 := by
          intro r0 c0 hc0
          exact hcol2 r0 c0 (by omega)
        obtain ⟨g', hrec, hg', hmar, hstar, hpts, hch, hct⟩ :=
          ih g2 (some y) (i+1) hg2 hlen' hmem' hprev'
        refine ⟨g', ?_, hg',
          margin_pres_trans hmar1 (margin_pres_trans hmar2 hmar),
          star_diff_trans hstar1 (star_diff_trans hstar2 hstar), ?_, ?_, ?_⟩
        · show drawTrace g (some p) i (y :: rest) = some g'
          simp only [drawTrace, hset]
          rw [if_pos hyH, if_pos hcond]
          simp only [hwc]
          exact hrec
        · intro j hj
          cases j with
          | zero =>
            simpa using star_keep hstar (star_keep hstar2 hcell1)
          | succ j =>
            have harith : LEFT_MARGIN + i + (j+1) = LEFT_MARGIN + (i+1) + j := by omega
            rw [List.getD_cons_succ, harith]
            exact hpts j (by simp only [List.length_cons] at hj; omega)
        · intro q hq hi1 hlen0 yy hyy
          cases hq
          simp only [List.getD_cons_zero] at hyy
          exact star_keep hstar (hmem2 yy hyy)
        · intro j hj0 hjlen yy hyy
          cases j with
          | zero => omega
          | succ j =>
            simp only [Nat.succ_sub_one, List.getD_cons_succ] at hyy ⊢
            cases j with
            | zero =>
              simp only [List.getD_cons_zero] at hyy
              have hc1 : LEFT_MARGIN + i + 1 - 1 = LEFT_MARGIN + (i+1) - 1 := by omega
              rw [hc1]
              exact hch y rfl (by omega)
                (by simp only [List.length_cons] at hjlen; omega) yy hyy
            | succ j =>
              have hc2 : LEFT_MARGIN + i + (j+2) - 1 = LEFT_MARGIN + (i+1) + (j+1) - 1 := by
                omega
              rw [hc2]
              exact hct (j+1) (by omega)
                (by simp only [List.length_cons] at hjlen; omega) yy hyy
      · have hi0 : i = 0 := by omega
        subst hi0
        have hcond : ¬ (LEFT_MARGIN ≤ LEFT_MARGIN + 0 - 1) := by
          simp [LEFT_MARGIN]
        obtain ⟨g', hrec, hg', hmar, hstar, hpts, hch, hct⟩ :=
          ih g1 (some y) 1 hg1 hlen' hmem' hprev'
        refine ⟨g', ?_, hg', margin_pres_trans hmar1 hmar,
          star_diff_trans hstar1 hstar, ?_, ?_, ?_⟩
        · show drawTrace g (some p) 0 (y :: rest) = some g'
          simp only [drawTrace, hset]
          rw [if_pos hyH, if_neg hcond]
          exact hrec
        · intro j hj
          cases j with
          | zero =>
            simpa using star_keep hstar hcell1
          | succ j =>
            rw [List.getD_cons_succ]
            have harith : LEFT_MARGIN + 0 + (j+1) = LEFT_MARGIN + 1 + j := by omega
            rw [harith]
            exact hpts j (by simp only [List.length_cons] at hj; omega)
        · intro q hq hi1 hlen0 yy hyy; omega
        · intro j hj0 hjlen yy hyy
          cases j with
          | zero => omega
          | succ j =>
            simp only [Nat.succ_sub_one, List.getD_cons_succ] at hyy ⊢
            cases j with
            | zero =>
              simp only [List.getD_cons_zero] at hyy
              have hc1 : LEFT_MARGIN + 0 + 1 - 1 = LEFT_MARGIN + 1 - 1 := by omega
              rw [hc1]
              exact hch y rfl (by omega)
                (by simp only [List.length_cons] at hjlen; omega) yy hyy
            | succ j =>
              have hc2 : LEFT_MARGIN + 0 + (j+2) - 1 = LEFT_MARGIN + 1 + (j+1) - 1 := by
                omega
              rw [hc2]
              exact hct (j+1) (by omega)
                (by simp only [List.length_cons] at hjlen; omega) yy hyy

/-- The history `[5, 8] + [8]*62`: one upward step of 3 rows at index 1. -/
def ex1 : List ℤ := [5, 8] ++ List.replicate 62 8

/-- The history `[10]*63 + [0]` of the sharp-transition scenario. -/
def hist2 : List ℤ := List.replicate 63 10 ++ [0]

/-- The frame rendered from `ex1`, written out literally. -/
def frame1 : List (List Char) :=
  [
    " 5.0|  ----------------------------------------------------------------".toList,
    "      |                                                                ".toList,
    "      |                                                                ".toList,
    "      |                                                                ".toList,
    "      |                                                                ".toList,
    "      |*                                                               ".toList,
    "      |*                                                               ".toList,
    "      |*                                                               ".toList,
    "      | ***************************************************************".toList,
    "      |                                                                ".toList,
    " 2.5|  ................................................................".toList,
    "      |                                                                ".toList,
    "      |                                                                ".toList,
    "      |                                                                ".toList,
    "      |                                                                ".toList,
    "      |                                                                ".toList,
    "      |                                                                ".toList,
    "      |                                                                ".toList,
    "      |                                                                ".toList,
    " 0.0|  ----------------------------------------------------------------".toList
  ]

/-- The frame rendered from `hist2`, written out literally. -/
def frame2 : List (List Char) :=
  [
    " 5.0|  ---------------------------------------------------------------*".toList,
    "      |                                                              * ".toList,
    "      |                                                              * ".toList,
    "      |                                                              * ".toList,
    "      |                                                              * ".toList,
    "      |                                                              * ".toList,
    "      |                                                              * ".toList,
    "      |                                                              * ".toList,
    "      |                                                              * ".toList,
    "      |                                                              * ".toList,
    " 2.5|  ***************************************************************.".toList,
    "      |                                                                ".toList,
    "      |                                                                ".toList,
    "      |                                                                ".toList,
    "      |                                                                ".toList,
    "      |                                                                ".toList,
    "      |                                                                ".toList,
    "      |                                                                ".toList,
    "      |                                                                ".toList,
    " 0.0|  ----------------------------------------------------------------".toList
  ]

theorem canvas_dims : DimsOk canvas := by
  constructor
  · rfl
  · decide

theorem draw_frame_ex1 : draw_frame ex1 = some frame1 := by decide

theorem draw_frame_hist2 : draw_frame hist2 = some frame2 := by decide

/-- Claim C1 counterexample: in the frame rendered from `ex1 = [5, 8, 8, ...]`
the connector at index `i = 1` (column `x - 1 = LEFT_MARGIN`) leaves the
inclusive endpoint row `y = 8` blank, because the source loop
`range(prev_y, y, step)` excludes its stop value `y`; so the claim that the
connector covers both endpoints inclusively is false. -/
theorem C1_connector_counterexample :
    cellD frame1 8 LEFT_MARGIN = ' ' ∧
    ¬ (∀ g, draw_frame ex1 = some g → ∀ j, 0 < j → j < ex1.length →
        ∀ yy : ℤ, min (ex1.getD (j-1) 0) (ex1.getD j 0) ≤ yy →
          yy ≤ max (ex1.getD (j-1) 0) (ex1.getD j 0) →
          cellD g yy.toNat (LEFT_MARGIN + j - 1) = '*') := by
  constructor
  · decide
  · intro hcl
    have h8 := hcl frame1 draw_frame_ex1 1 (by decide) (by decide) 8
      (by decide) (by decide)
    exact absurd h8 (by decide)

/-- Claim C1 (amended): for a history of length at most `W` with rows in
`[0, H-1]`, the connector drawn at column `x - 1` for each index `i > 0`
covers the half-open span between `prev_y` and `y`: every row inclusively
between them except the current row `y` itself carries the trace glyph
(`range(prev_y, y, step)` excludes `y`); when `prev_y = y` the connector
writes no cell at all. -/
theorem C1_connector_half_open (hist : List ℤ) (hlen : hist.length ≤ W)
    (hr : ∀ y ∈ hist, 0 ≤ y ∧ y < (H : ℤ)) :
    ∃ g, draw_frame hist = some g ∧
      ∀ j, 0 < j → j < hist.length →
        ∀ yy : ℤ, min (hist.getD (j-1) 0) (hist.getD j 0) ≤ yy →
          yy ≤ max (hist.getD (j-1) 0) (hist.getD j 0) → yy ≠ hist.getD j 0 →
          cellD g yy.toNat (LEFT_MARGIN + j - 1) = '*' := by
  obtain ⟨g, heq, _, _, _, _, _, hct⟩ :=
    drawTrace_ok hist canvas none 0 canvas_dims (by omega) hr
      (fun p hp => Option.noConfusion hp)
  refine ⟨g, heq, ?_⟩
  intro j hj0 hjlen yy h1 h2 h3
  exact hct j hj0 hjlen yy (connRange_mem_of_between h1 h2 h3)

theorem C1_connector_half_open_witness :
    ex1.length ≤ W ∧
    (∃ g, draw_frame ex1 = some g ∧
      ∀ j, 0 < j → j < ex1.length →
        ∀ yy : ℤ, min (ex1.getD (j-1) 0) (ex1.getD j 0) ≤ yy →
          yy ≤ max (ex1.getD (j-1) 0) (ex1.getD j 0) → yy ≠ ex1.getD j 0 →
          cellD g yy.toNat (LEFT_MARGIN + j - 1) = '*') :=
  ⟨by decide, C1_connector_half_open ex1 (by decide) (by decide)⟩

/-- Claim C2 counterexample: in the frame rendered from `[10]*63 + [0]`, row 0
of the second-to-last plot column holds the horizontal rule glyph, not the
trace glyph, so the connector does not reach row 0: it covers only rows 10
down to 1. -/
theorem C2_sharp_transition_counterexample :
    draw_frame hist2 = some frame2 ∧
    cellD frame2 0 (LEFT_MARGIN + W - 2) = '-' ∧
    ¬ (∀ r : ℕ, r ≤ 10 → cellD frame2 r (LEFT_MARGIN + W - 2) = '*') :=
  ⟨draw_frame_hist2, by decide, by decide⟩

/-- Claim C2 (amended): with the grid enabled, rendering `[10]*63 + [0]` gives
a frame whose second-to-last plot column carries the trace glyph exactly in
rows 1 through 10 (the connector writes the 10 cells from row 10 down to
row 1; row 0 of that column keeps the top rule), while the final plot column
carries the trace glyph only at row 0. -/
theorem C2_sharp_transition :
    draw_frame hist2 = some frame2 ∧
    (∀ r : Fin H,
      (cellD frame2 r (LEFT_MARGIN + W - 2) = '*' ↔ 1 ≤ r.val ∧ r.val ≤ 10)) ∧
    (∀ r : Fin H, (cellD frame2 r (LEFT_MARGIN + W - 1) = '*' ↔ r.val = 0)) :=
  ⟨draw_frame_hist2, by decide, by decide⟩

/-- Claim C8 counterexample: for the history `[25, 3]` (whose first entry is
outside the row range), drawing the connector indexes row 25 of a 20-row
grid and raises `IndexError`, so `render` does not return a grid at all and
in particular not one of the stated dimensions. -/
theorem C8_frame_dimensions_counterexample : draw_frame [25, 3] = none := by
  decide

/-- Claim C8 (amended): for every history of length at most `W` whose rows
lie in `[0, H-1]`, `render` returns a grid of exactly `H` rows of exactly
`LEFT_MARGIN + W` characters each, and the freshly allocated line is blank
in every cell before decoration; for arbitrary row values the original claim
fails (see the counterexample, where row value 25 raises `IndexError`). -/
theorem C8_frame_dimensions (hist : List ℤ) (hlen : hist.length ≤ W)
    (hr : ∀ y ∈ hist, 0 ≤ y ∧ y < (H : ℤ)) :
    (∃ g, draw_frame hist = some g ∧ g.length = H ∧
      ∀ row ∈ g, row.length = LEFT_MARGIN + W) ∧
    (emptyLine.length = LEFT_MARGIN + W ∧ ∀ ch ∈ emptyLine, ch = ' ') := by
  obtain ⟨g, heq, hg, _, _, _, _, _⟩ :=
    drawTrace_ok hist canvas none 0 canvas_dims (by omega) hr
      (fun p hp => Option.noConfusion hp)
  exact ⟨⟨g, heq, hg.1, hg.2⟩, by decide, by decide⟩

theorem C8_frame_dimensions_witness :
    hist2.length ≤ W ∧
    ((∃ g, draw_frame hist2 = some g ∧ g.length = H ∧
      ∀ row ∈ g, row.length = LEFT_MARGIN + W) ∧
    (emptyLine.length = LEFT_MARGIN + W ∧ ∀ ch ∈ emptyLine, ch = ' ')) :=
  ⟨by decide, C8_frame_dimensions hist2 (by decide) (by decide)⟩

/-- Claim C9: decoration precedence.  On the middle row the dotted guide is
written only into cells left blank by the decoration step — every non-blank
decorated cell (label or separator) keeps its glyph, every blank plot-area
cell becomes a dot — and the trace, drawn after decoration and grid, puts
the trace glyph into every cell where a trace point lands and into every
cell where a connector lands (the cells of `range(prev_y, y, step)` at
column `x-1`), whatever grid or axis glyph was there; the trace glyph is the
only glyph by which the rendered frame can differ from the decorated
canvas. -/
theorem C9_precedence :
    ((∀ c : Fin (LEFT_MARGIN + W),
        (buildRowDec (H/2)).getD c ' ' ≠ ' ' →
          (buildRow (H/2)).getD c ' ' = (buildRowDec (H/2)).getD c ' ') ∧
     (∀ c : Fin (LEFT_MARGIN + W), LEFT_MARGIN ≤ c.val →
        (buildRowDec (H/2)).getD c ' ' = ' ' →
          (buildRow (H/2)).getD c ' ' = '.')) ∧
    (∀ hist : List ℤ, hist.length ≤ W →
      (∀ y ∈ hist, 0 ≤ y ∧ y < (H : ℤ)) →
      ∃ g, draw_frame hist = some g ∧
        (∀ j, j < hist.length →
          cellD g (hist.getD j 0).toNat (LEFT_MARGIN + j) = '*') ∧
        (∀ j, 0 < j → j < hist.length →
          ∀ yy ∈ connRange (hist.getD (j-1) 0) (hist.getD j 0),
            cellD g yy.toNat (LEFT_MARGIN + j - 1) = '*') ∧
        StarDiff canvas g) := by
  refine ⟨⟨by decide, by decide⟩, ?_⟩
  intro hist hlen hr
  obtain ⟨g, heq, _, _, hstar, hpts, _, hct⟩ :=
    drawTrace_ok hist canvas none 0 canvas_dims (by omega) hr
      (fun p hp => Option.noConfusion hp)
  exact ⟨g, heq, fun j hj => hpts j hj,
    fun j hj0 hj yy hyy => hct j hj0 hj yy hyy, hstar⟩

theorem C9_precedence_witness :
    hist2.length ≤ W ∧
    (∃ g, draw_frame hist2 = some g ∧
      (∀ j, j < hist2.length →
        cellD g (hist2.getD j 0).toNat (LEFT_MARGIN + j) = '*') ∧
      (∀ j, 0 < j → j < hist2.length →
        ∀ yy ∈ connRange (hist2.getD (j-1) 0) (hist2.getD j 0),
          cellD g yy.toNat (LEFT_MARGIN + j - 1) = '*') ∧
      StarDiff canvas g) :=
  ⟨by decide, C9_precedence.2 hist2 (by decide) (by decide)⟩

/-- Claim C10: for every history of length at most `W` whose rows all lie in
`[0, H-1]`, every cell write of `render` is in bounds — the call returns a
full `H × (LEFT_MARGIN + W)` frame instead of raising `IndexError` — and
the trace step never writes into the margin columns `[0, LEFT_MARGIN-1]`,
which therefore hold exactly the decoration output; every other cell differs
from the decorated canvas only by the trace glyph. -/
theorem C10_write_bounds (hist : List ℤ) (hlen : hist.length ≤ W)
    (hr : ∀ y ∈ hist, 0 ≤ y ∧ y < (H : ℤ)) :
    ∃ g, draw_frame hist = some g ∧ g.length = H ∧
      (∀ row ∈ g, row.length = LEFT_MARGIN + W) ∧
      MarginPres canvas g ∧ StarDiff canvas g := by
  obtain ⟨g, heq, hg, hmar, hstar, _, _, _⟩ :=
    drawTrace_ok hist canvas none 0 canvas_dims (by omega) hr
      (fun p hp => Option.noConfusion hp)
  exact ⟨g, heq, hg.1, hg.2, hmar, hstar⟩

theorem C10_write_bounds_witness :
    ex1.length ≤ W ∧
    (∃ g, draw_frame ex1 = some g ∧ g.length = H ∧
      (∀ row ∈ g, row.length = LEFT_MARGIN + W) ∧
      MarginPres canvas g ∧ StarDiff canvas g) :=
  ⟨by decide, C10_write_bounds ex1 (by decide) (by decide)⟩

end Oscilloscope
